import Mathlib

/-!
Verification development for the PE parser in `pe.cpp` (namespace `sg`).

The backing file is modelled as a `List Nat` of bytes together with an explicit
cursor.  `fseek` with `SEEK_SET` on a regular file never fails (even past the
end of the file), so seeking is modelled as replacing the cursor; `fread`
returns the bytes actually available, possibly fewer than requested.  Machine
arithmetic is modelled on `Nat` with explicit reductions modulo `2^32` where the
source computes in 32-bit unsigned integers.
-/

/-- Little-endian value of a byte list, as `fread` into a zero-initialised
integer field stores it.  Entries are reduced mod 256: a file byte is 0..255. -/
def leBytes : List Nat → Nat
  | [] => 0
  | b :: bs => b % 256 + 256 * leBytes bs

/-- Unsigned 32-bit subtraction `x - y` with wraparound, as in the source's
`unsigned int` arithmetic. -/
def usub32 (x y : Nat) : Nat := (x + (4294967296 - y % 4294967296)) % 4294967296

/-- Model of `fread(buf, 1, n, f)`: the bytes actually read (at most `n`, fewer
at end of stream) and the advanced cursor. -/
def freadBytes (data : List Nat) (pos n : Nat) : List Nat × Nat :=
  let bs := (data.drop pos).take n
  (bs, pos + bs.length)

/-- Read `n` bytes and decode them little-endian; `none` models a short read
(the source's `n != fread(...)` test). -/
def readU (data : List Nat) (pos n : Nat) : Option Nat × Nat :=
  let r := freadBytes data pos n
  (if r.1.length = n then some (leBytes r.1) else none, r.2)

/-- Section header fields used by the address translator (class `Section`). -/
structure PESection where
  virtualAddress : Nat
  virtualSize : Nat
  pointerToRawData : Nat
  sizeOfRawData : Nat
deriving DecidableEq

/-- Modelled from the spec: `utils::is_address_in_section` lives in `utils.cpp`,
which is not among the sources.  Per spec §4.3, the first scan matches a section
whose virtual range `[VirtualAddress, VirtualAddress + VirtualSize)` contains
the RVA; with `check_raw_size` the raw-data size `SizeOfRawData` replaces
`VirtualSize`. -/
def is_address_in_section (rva : Nat) (s : PESection) (check_raw_size : Bool) : Bool :=
  if check_raw_size then
    decide (s.virtualAddress ≤ rva ∧ rva < s.virtualAddress + s.sizeOfRawData)
  else
    decide (s.virtualAddress ≤ rva ∧ rva < s.virtualAddress + s.virtualSize)

/-- `PE::_rva_to_offset`, mirrored faithfully from the source, including the
fact that the second scan (with `check_raw_size = true`) is performed and its
result immediately discarded: `return 0;` runs unconditionally at the end of the
`section == NULL` branch.  When the first scan finds a section we have
`virtualAddress ≤ rva`, so `Nat` subtraction agrees with the source's unsigned
64-bit subtraction. -/
def rva_to_offset (sections : List PESection) (rva : Nat) : Nat :=
  if sections.length = 0 then rva % 4294967296
  else
    match sections.find? (fun s => is_address_in_section rva s false) with
    | some s => (rva - s.virtualAddress + s.pointerToRawData) % 4294967296
    | none =>
      match sections.find? (fun s => is_address_in_section rva s true) with
      | some _ => 0
      | none => 0

/-- `PE::_va_to_offset`. -/
def va_to_offset (sections : List PESection) (imageBase va : Nat) : Nat :=
  if va > imageBase then rva_to_offset sections (va - imageBase) else 0

/-- One `IMAGE_DATA_DIRECTORY` entry. -/
structure ImageDataDirectory where
  virtualAddress : Nat
  size : Nat
deriving DecidableEq

/-- The header/section state shared by the directory parsers: the loaded section
table, the 16-entry directory array of the optional header, `ImageBase` and the
PE32+ flag (`_ioh.Magic == IMAGE_OPTIONAL_HEADER_MAGIC["PE32+"]`). -/
structure PECtx where
  sections : List PESection
  directories : List ImageDataDirectory
  imageBase : Nat
  isPE32plus : Bool

/-- Modelled from standard PE constants (`nt_values.h` is not among the
sources): data-directory slot numbers. -/
def IMAGE_DIRECTORY_ENTRY_EXPORT : Nat := 0
def IMAGE_DIRECTORY_ENTRY_SECURITY : Nat := 4
def IMAGE_DIRECTORY_ENTRY_BASERELOC : Nat := 5
def IMAGE_DIRECTORY_ENTRY_TLS : Nat := 9

/-- Tail of `PE::_reach_directory`: translate the directory's RVA and seek to
it.  `fseek` to a non-negative offset on a regular file succeeds, so the only
failure is the zero sentinel from the translator. -/
def directory_seek (ctx : PECtx) (pos : Nat) (d : ImageDataDirectory) : Bool × Nat :=
  let offset := rva_to_offset ctx.sections d.virtualAddress
  if offset = 0 then (false, pos) else (true, offset)

/-- `PE::_reach_directory`.  The guard is `directory > 0x10`, exactly as in the
source; reading `_ioh.directories[directory]` past the end of the 16-entry
array is undefined behaviour, modelled as `Except.error`. -/
def reach_directory (ctx : PECtx) (pos : Nat) (directory : Nat) : Except Unit (Bool × Nat) :=
  if directory > 16 then .ok (false, pos)
  else
    match ctx.directories[directory]? with
    | none => .error ()
    | some d =>
      if d.virtualAddress = 0 ∧ d.size = 0 then .ok (false, pos)
      else if d.size = 0 then .ok (directory_seek ctx pos d)
      else if d.virtualAddress = 0 then .ok (false, pos)
      else .ok (directory_seek ctx pos d)

/-- C1: the claim states the three-stage algorithm of spec §4.3, in particular
that an RVA matched only by the raw-data-size scan translates to
`rva - VirtualAddress + PointerToRawData`.  In the source the result of that
second scan is discarded (`return 0;` is unconditional), so for the section
`(VirtualAddress 4096, VirtualSize 16, PointerToRawData 1024, SizeOfRawData 512)`
and RVA 4352 — inside the raw range, outside the virtual range — the translator
returns the sentinel 0 where the claim demands 1280. -/
theorem c1_raw_size_scan_discarded :
    rva_to_offset [⟨4096, 16, 1024, 512⟩] 4352 = 0 ∧
    is_address_in_section 4352 ⟨4096, 16, 1024, 512⟩ true = true ∧
    4352 - 4096 + 1024 = 1280 := by
  refine ⟨rfl, by decide, by decide⟩

/-- C3: the claim says every slot greater than 15 is reported absent without
touching the 16-entry directory array.  The source's guard is `directory > 0x10`,
so slot 16 slips through and reads `directories[16]`, one past the end of the
array (undefined behaviour, `Except.error` in the model); slots 17 and above do
return `false`. -/
theorem c3_slot16_out_of_bounds :
    reach_directory ⟨[], List.replicate 16 ⟨1, 1⟩, 0, false⟩ 0 16 = Except.error () ∧
    reach_directory ⟨[], List.replicate 16 ⟨1, 1⟩, 0, false⟩ 0 17 = Except.ok (false, 0) :=
  ⟨rfl, rfl⟩

/-- C9: case analysis of `PE::_reach_directory` on the zero-ness of a slot's
`VirtualAddress` and `Size`, for in-range slots: both zero reports absent;
`Size = 0` with a non-zero address warns and still proceeds to translate and
seek; `VirtualAddress = 0` with a non-zero size fails; otherwise the call
succeeds exactly when the translation is non-zero (the modelled seek always
succeeds). -/
theorem c9_reach_directory_cases (ctx : PECtx) (pos slot : Nat) (d : ImageDataDirectory)
    (hslot : slot ≤ 15) (hd : ctx.directories[slot]? = some d) :
    (d.virtualAddress = 0 ∧ d.size = 0 → reach_directory ctx pos slot = .ok (false, pos)) ∧
    (d.virtualAddress ≠ 0 ∧ d.size = 0 →
      reach_directory ctx pos slot = .ok (directory_seek ctx pos d)) ∧
    (d.virtualAddress = 0 ∧ d.size ≠ 0 → reach_directory ctx pos slot = .ok (false, pos)) ∧
    (d.virtualAddress ≠ 0 ∧ d.size ≠ 0 →
      (reach_directory ctx pos slot = .ok (true, rva_to_offset ctx.sections d.virtualAddress)
        ↔ rva_to_offset ctx.sections d.virtualAddress ≠ 0)) := by
  have hnot : ¬ slot > 16 := by omega
  refine ⟨?_, ?_, ?_, ?_⟩
  · rintro ⟨h1, h2⟩
    simp [reach_directory, hnot, hd, h1, h2]
  · rintro ⟨h1, h2⟩
    simp [reach_directory, hnot, hd, h1, h2]
  · rintro ⟨h1, h2⟩
    simp [reach_directory, hnot, hd, h1, h2]
  · rintro ⟨h1, h2⟩
    constructor
    · intro heq hzero
      simp [reach_directory, hnot, hd, h1, h2, directory_seek, hzero] at heq
    · intro hne
      simp [reach_directory, hnot, hd, h1, h2, directory_seek, hne]

/-- Witness for C9: a concrete in-range slot with non-zero address and size, on
an image with no sections, succeeds with the translated (identity) offset. -/
theorem c9_witness :
    reach_directory ⟨[], [⟨7, 9⟩], 0, false⟩ 3 0 = .ok (true, rva_to_offset [] 7) :=
  ((c9_reach_directory_cases ⟨[], [⟨7, 9⟩], 0, false⟩ 3 0 ⟨7, 9⟩ (by omega) rfl).2.2.2
    (by decide)).mpr (by decide)

/-- One `IMAGE_BASE_RELOCATION` block: the two header fields and the 16-bit
type/offset entries read after it.  Per spec §3/§4.6 the on-disk header order is
`{PageRVA, BlockSize}` (the struct declaration itself is not among the
sources). -/
structure RelocBlock where
  pageRVA : Nat
  blockSize : Nat
  typesOffsets : List Nat
deriving DecidableEq

/-- The inner loop of `PE::_parse_relocations`: read `count` 16-bit entries one
`fread` at a time; `none` on the first short read (final cursor either way). -/
def read_u16s (data : List Nat) : Nat → Nat → Option (List Nat) × Nat
  | pos, 0 => (some [], pos)
  | pos, count + 1 =>
    match readU data pos 2 with
    | (none, p) => (none, p)
    | (some v, p) =>
      match read_u16s data p count with
      | (none, p2) => (none, p2)
      | (some vs, p2) => (some (v :: vs), p2)

/-- One iteration of the `while (remaining_size > 0)` loop of
`PE::_parse_relocations` (`rec` is the remainder of the loop): read an 8-byte
`{PageRVA, BlockSize}` header (failing the parse on a short read or
`BlockSize > remaining_size`), then `(BlockSize - 8) / 2` 16-bit entries in
32-bit unsigned arithmetic, append the block and subtract `BlockSize` from the
remaining size. -/
def reloc_step (data : List Nat) (rec : Nat → Nat → Option (Bool × Nat × List RelocBlock))
    (pos remaining : Nat) : Option (Bool × Nat × List RelocBlock) :=
  if remaining = 0 then some (true, pos, [])
  else
    let r := freadBytes data pos 8
    if r.1.length ≠ 8 then some (false, r.2, [])
    else
      let pageRVA := leBytes (r.1.take 4)
      let blockSize := leBytes (r.1.drop 4)
      if blockSize > remaining then some (false, r.2, [])
      else
        match read_u16s data r.2 (usub32 blockSize 8 / 2) with
        | (none, p2) => some (false, p2, [])
        | (some vs, p2) =>
          (rec p2 (remaining - blockSize)).map
            (fun t => (t.1, t.2.1, ⟨pageRVA, blockSize, vs⟩ :: t.2.2))

/-- The relocation loop with explicit fuel: `none` means the fuel was exhausted
before the loop returned. -/
def reloc_loopF (data : List Nat) : Nat → Nat → Nat → Option (Bool × Nat × List RelocBlock)
  | 0, _, _ => none
  | fuel + 1, pos, remaining => reloc_step data (reloc_loopF data fuel) pos remaining

/-- Every iteration of the relocation loop consumes at least the 8 header bytes
or returns, so `data.length + 1` units of fuel always suffice (see
`c10_parser_loops_terminate`). -/
def reloc_loop (data : List Nat) (pos remaining : Nat) : Bool × Nat × List RelocBlock :=
  (reloc_loopF data (data.length + 1) pos remaining).getD (true, pos, [])

/-- `PE::_parse_relocations`. -/
def parse_relocations (ctx : PECtx) (data : List Nat) (pos : Nat) :
    Except Unit (Bool × Nat × List RelocBlock) :=
  match reach_directory ctx pos IMAGE_DIRECTORY_ENTRY_BASERELOC with
  | .error e => .error e
  | .ok (false, p) => .ok (true, p, [])
  | .ok (true, p) =>
    match ctx.directories[IMAGE_DIRECTORY_ENTRY_BASERELOC]? with
    | none => .error ()
    | some d => .ok (reloc_loop data p d.size)

theorem readU_pos_le (data : List Nat) (pos n : Nat) : pos ≤ (readU data pos n).2 := by
  simp [readU, freadBytes]

theorem read_u16s_pos_le (data : List Nat) :
    ∀ count pos, pos ≤ (read_u16s data pos count).2 := by
  intro count
  induction count with
  | zero => intro pos; simp [read_u16s]
  | succ k ih =>
    intro pos
    have h1 := readU_pos_le data pos 2
    rcases hu : readU data pos 2 with ⟨o, p⟩
    rw [hu] at h1
    simp only at h1
    cases o with
    | none => simpa [read_u16s, hu] using h1
    | some v =>
      have h2 := ih p
      rcases hr : read_u16s data p k with ⟨o2, p2⟩
      rw [hr] at h2
      simp only at h2
      cases o2 <;> simp [read_u16s, hu, hr] <;> omega

theorem read_u16s_length (data : List Nat) :
    ∀ count pos vs p2, read_u16s data pos count = (some vs, p2) → vs.length = count := by
  intro count
  induction count with
  | zero =>
    intro pos vs p2 h
    simp [read_u16s] at h
    simp [h.1.symm]
  | succ k ih =>
    intro pos vs p2 h
    simp only [read_u16s] at h
    rcases hu : readU data pos 2 with ⟨o, p⟩
    rw [hu] at h
    cases o with
    | none => simp at h
    | some v =>
      simp only at h
      rcases hr : read_u16s data p k with ⟨o2, q⟩
      rw [hr] at h
      cases o2 with
      | none => simp at h
      | some ws =>
        simp only [Prod.mk.injEq, Option.some.injEq] at h
        rw [← h.1]
        simp [ih p ws q hr]

/-- Pad a short read to the width of the zero-initialised field it was stored
into (`memset(..., 0, ...)` precedes every such read in the source). -/
def padTo (bs : List Nat) (n : Nat) : List Nat := bs ++ List.replicate (n - bs.length) 0

/-- The `IMAGE_TLS_DIRECTORY` record built by `PE::_parse_tls`: four address
fields held in 64-bit variables, two 32-bit fields, and the callback list. -/
structure TlsRec where
  startAddressOfRawData : Nat
  endAddressOfRawData : Nat
  addressOfIndex : Nat
  addressOfCallbacks : Nat
  sizeOfZeroFill : Nat
  characteristics : Nat
  callbacks : List Nat
deriving DecidableEq

/-- The fixed-record part of `PE::_parse_tls`: for PE32+ one 40-byte `fread` of
the whole zeroed structure; for PE32 four 4-byte reads into the (64-bit, zeroed)
address fields followed by one 8-byte read covering `SizeOfZeroFill` and
`Characteristics`.  The third component models `feof(f) || ferror(f)` being
clear afterwards: true exactly when every read was complete. -/
def read_tls_record (isPE32plus : Bool) (data : List Nat) (pos : Nat) : TlsRec × Nat × Bool :=
  if isPE32plus then
    let r := freadBytes data pos 40
    let b := padTo r.1 40
    (⟨leBytes (b.take 8), leBytes ((b.drop 8).take 8), leBytes ((b.drop 16).take 8),
      leBytes ((b.drop 24).take 8), leBytes ((b.drop 32).take 4), leBytes (b.drop 36), []⟩,
     r.2, decide (r.1.length = 40))
  else
    let r1 := freadBytes data pos 4
    let r2 := freadBytes data r1.2 4
    let r3 := freadBytes data r2.2 4
    let r4 := freadBytes data r3.2 4
    let r5 := freadBytes data r4.2 8
    (⟨leBytes (padTo r1.1 4), leBytes (padTo r2.1 4), leBytes (padTo r3.1 4),
      leBytes (padTo r4.1 4), leBytes ((padTo r5.1 8).take 4), leBytes ((padTo r5.1 8).drop 4),
      []⟩,
     r5.2,
     decide (r1.1.length = 4 ∧ r2.1.length = 4 ∧ r3.1.length = 4 ∧ r4.1.length = 4 ∧
             r5.1.length = 8))

/-- One iteration of the `while (true)` callback loop of `PE::_parse_tls`
(`rec` is the remainder of the loop): read `size` bytes (8 for PE32+, 4 for
PE32) into the zero-initialised 64-bit `callback_address`; a short read or a
zero value breaks out of the loop without appending. -/
def tls_callback_step (data : List Nat) (size : Nat) (rec : Nat → Option (Nat × List Nat))
    (pos : Nat) : Option (Nat × List Nat) :=
  let r := freadBytes data pos size
  if r.1.length ≠ size then some (r.2, [])
  else if leBytes r.1 = 0 then some (r.2, [])
  else (rec r.2).map (fun t => (t.1, leBytes r.1 :: t.2))

/-- The TLS callback loop with explicit fuel: `none` means the fuel was
exhausted before the loop returned. -/
def tls_callback_loopF (data : List Nat) (size : Nat) : Nat → Nat → Option (Nat × List Nat)
  | 0, _ => none
  | fuel + 1, pos => tls_callback_step data size (tls_callback_loopF data size fuel) pos

/-- Every continuing iteration consumes `size ≥ 1` bytes, so `data.length + 1`
units of fuel always suffice (see `c10_parser_loops_terminate`). -/
def tls_callback_loop (data : List Nat) (size pos : Nat) : Nat × List Nat :=
  (tls_callback_loopF data size (data.length + 1) pos).getD (pos, [])

/-- `PE::_parse_tls`. -/
def parse_tls (ctx : PECtx) (data : List Nat) (pos : Nat) : Except Unit (Bool × Nat × TlsRec) :=
  match reach_directory ctx pos IMAGE_DIRECTORY_ENTRY_TLS with
  | .error e => .error e
  | .ok (false, p) => .ok (true, p, ⟨0, 0, 0, 0, 0, 0, []⟩)
  | .ok (true, p) =>
    let r := read_tls_record ctx.isPE32plus data p
    if r.2.2 = false then .ok (false, r.2.1, r.1)
    else
      let offset := va_to_offset ctx.sections ctx.imageBase r.1.addressOfCallbacks
      if offset = 0 then .ok (false, r.2.1, r.1)
      else
        let size := if ctx.isPE32plus then 8 else 4
        let t := tls_callback_loop data size offset
        .ok (true, t.1, {r.1 with callbacks := t.2})

/-- One `WIN_CERTIFICATE`: per spec §3 the 8-byte header is
`{Length (u32), Revision (u16), CertificateType (u16)}` followed by the blob
(the struct declaration itself is not among the sources).  The blob field
reflects `resize(Length)` followed by an `fread` of `Length - 8` bytes: the
bytes read, zero-padded to `Length` entries. -/
structure WinCertificate where
  certLength : Nat
  revision : Nat
  certificateType : Nat
  certificate : List Nat
deriving DecidableEq

/-- Payload stage of one certificate-loop iteration: the argument pair is the
result of the `fread` of `Length - header_size` bytes (32-bit unsigned
arithmetic).  A short read is a fatal failure; otherwise the certificate is
appended, `remaining_bytes -= cert->Length` wraps in unsigned arithmetic, and
`Length % 8` alignment padding is skipped when padding remains and bytes are
still available. -/
def cert_step_payload (rec : Nat → Nat → Option (Bool × Nat × List WinCertificate))
    (remaining len rev ty : Nat) :
    List Nat × Nat → Option (Bool × Nat × List WinCertificate)
  | (pb, p2) =>
    if pb.length ≠ usub32 len 8 then some (false, p2, [])
    else
      let cert : WinCertificate := ⟨len, rev, ty, padTo pb len⟩
      let remaining2 := usub32 remaining len
      let padding := len % 8
      if padding ≠ 0 ∧ remaining2 ≠ 0 then
        (rec (p2 + padding) (usub32 remaining2 padding)).map
          (fun t => (t.1, t.2.1, cert :: t.2.2))
      else
        (rec p2 remaining2).map (fun t => (t.1, t.2.1, cert :: t.2.2))

/-- Validation stage of one certificate-loop iteration, after the header fields
`len`, `rev`, `ty` have been decoded.  `knownRev` and `knownType` model
`nt::translate_to_flag(..., WIN_CERTIFICATE_REVISIONS / _TYPES) != "UNKNOWN"`
(`nt_values.h` is not among the sources; spec §4.8: both failing to match any
known enumerated value stops the scan non-fatally).  The next condition mirrors
the source's `cert->Length < remaining_bytes || cert->Length - header_size !=
fread(...)` with its short-circuit: the payload is read only when
`len ≥ remaining`. -/
def cert_step_body (knownRev knownType : Nat → Bool) (data : List Nat)
    (rec : Nat → Nat → Option (Bool × Nat × List WinCertificate))
    (remaining p1 len rev ty : Nat) : Option (Bool × Nat × List WinCertificate) :=
  if knownType ty = false ∧ knownRev rev = false then some (true, p1, [])
  else if len < remaining then some (false, p1, [])
  else cert_step_payload rec remaining len rev ty (freadBytes data p1 (usub32 len 8))

/-- Header stage of one certificate-loop iteration: the argument pair is the
result of the 8-byte header `fread`.  A short read stops the scan non-fatally;
per spec §3 the header layout is `{Length (u32), Revision (u16),
CertificateType (u16)}`. -/
def cert_step_hdr (knownRev knownType : Nat → Bool) (data : List Nat)
    (rec : Nat → Nat → Option (Bool × Nat × List WinCertificate)) (remaining : Nat) :
    List Nat × Nat → Option (Bool × Nat × List WinCertificate)
  | (hb, p1) =>
    if hb.length ≠ 8 then some (true, p1, [])
    else cert_step_body knownRev knownType data rec remaining p1 (leBytes (hb.take 4))
      (leBytes ((hb.drop 4).take 2)) (leBytes (hb.drop 6))

/-- One iteration of the `while (remaining_bytes > header_size)` loop of
`PE::_parse_certificates` (`rec` is the remainder of the loop). -/
def cert_step (knownRev knownType : Nat → Bool) (data : List Nat)
    (rec : Nat → Nat → Option (Bool × Nat × List WinCertificate))
    (pos remaining : Nat) : Option (Bool × Nat × List WinCertificate) :=
  if remaining ≤ 8 then some (true, pos, [])
  else cert_step_hdr knownRev knownType data rec remaining (freadBytes data pos 8)

/-- The certificate loop with explicit fuel: `none` means the fuel was
exhausted before the loop returned. -/
def cert_loopF (knownRev knownType : Nat → Bool) (data : List Nat) :
    Nat → Nat → Nat → Option (Bool × Nat × List WinCertificate)
  | 0, _, _ => none
  | fuel + 1, pos, remaining =>
    cert_step knownRev knownType data (cert_loopF knownRev knownType data fuel) pos remaining

/-- Every continuing iteration consumes at least the 8 header bytes, so
`data.length + 1` units of fuel always suffice (see
`c10_parser_loops_terminate`). -/
def cert_loop (knownRev knownType : Nat → Bool) (data : List Nat) (pos remaining : Nat) :
    Bool × Nat × List WinCertificate :=
  (cert_loopF knownRev knownType data (data.length + 1) pos remaining).getD (true, pos, [])

/-- `PE::_parse_certificates`.  The security directory's `VirtualAddress` is a
raw file offset and is used as the seek target without translation. -/
def parse_certificates (knownRev knownType : Nat → Bool) (ctx : PECtx) (data : List Nat)
    (pos : Nat) : Bool × Nat × List WinCertificate :=
  let d := ctx.directories.getD IMAGE_DIRECTORY_ENTRY_SECURITY ⟨0, 0⟩
  if d.virtualAddress = 0 then (true, pos, [])
  else cert_loop knownRev knownType data d.virtualAddress d.size

theorem take8_full_le (data : List Nat) (pos : Nat)
    (h8 : ((data.drop pos).take 8).length = 8) : 8 ≤ data.length - pos := by
  have h : ((data.drop pos).take 8).length = min 8 (data.length - pos) := by simp
  omega

theorem reloc_step_isSome (data : List Nat)
    (rec : Nat → Nat → Option (Bool × Nat × List RelocBlock)) (pos rem : Nat)
    (hrec : ∀ q r2, pos + 8 ≤ q → 8 ≤ data.length - pos → (rec q r2).isSome = true) :
    (reloc_step data rec pos rem).isSome = true := by
  simp only [reloc_step, freadBytes]
  by_cases h0 : rem = 0
  · rw [if_pos h0]
    rfl
  · rw [if_neg h0]
    by_cases h8 : ((data.drop pos).take 8).length = 8
    · rw [h8]
      rw [if_neg (fun hc => hc rfl)]
      have h8le : 8 ≤ data.length - pos := take8_full_le data pos h8
      by_cases hbs : leBytes (((data.drop pos).take 8).drop 4) > rem
      · rw [if_pos hbs]
        rfl
      · rw [if_neg hbs]
        rcases hr : read_u16s data (pos + 8)
            (usub32 (leBytes (((data.drop pos).take 8).drop 4)) 8 / 2) with ⟨o, p2⟩
        have hp2 : pos + 8 ≤ p2 := by
          have hle := read_u16s_pos_le data
              (usub32 (leBytes (((data.drop pos).take 8).drop 4)) 8 / 2) (pos + 8)
          rw [hr] at hle
          exact hle
        cases o with
        | none => simp [hr]
        | some vs =>
          rcases ho : rec p2 (rem - leBytes (((data.drop pos).take 8).drop 4)) with _ | t
          · have hi := hrec p2 (rem - leBytes (((data.drop pos).take 8).drop 4)) hp2 h8le
            rw [ho] at hi
            simp at hi
          · simp [hr, ho]
    · rw [if_pos h8]
      rfl

theorem reloc_loopF_isSome (data : List Nat) :
    ∀ fuel pos remaining, data.length - pos < 8 * fuel →
      (reloc_loopF data fuel pos remaining).isSome = true := by
  intro fuel
  induction fuel with
  | zero => intro pos rem h; omega
  | succ f ih =>
    intro pos rem h
    simp only [reloc_loopF]
    apply reloc_step_isSome
    intro q r2 hq hpos
    exact ih q r2 (by omega)

theorem tls_callback_step_isSome (data : List Nat) (size : Nat)
    (rec : Nat → Option (Nat × List Nat)) (pos : Nat)
    (hrec : ∀ q, pos + size ≤ q → 1 ≤ size → size ≤ data.length - pos →
      (rec q).isSome = true) :
    (tls_callback_step data size rec pos).isSome = true := by
  simp only [tls_callback_step, freadBytes]
  by_cases hs : ((data.drop pos).take size).length = size
  · rw [hs]
    rw [if_neg (fun hc => hc rfl)]
    by_cases hz : leBytes ((data.drop pos).take size) = 0
    · rw [if_pos hz]
      rfl
    · rw [if_neg hz]
      have hsize1 : 1 ≤ size := by
        rcases hbs : (data.drop pos).take size with _ | ⟨c, cs⟩
        · rw [hbs] at hz; simp [leBytes] at hz
        · rw [hbs] at hs; simp at hs; omega
      have hfull : size ≤ data.length - pos := by
        have hlen : ((data.drop pos).take size).length = min size (data.length - pos) := by
          simp
        omega
      rcases ho : rec (pos + size) with _ | t
      · have hi := hrec (pos + size) (le_refl _) hsize1 hfull
        rw [ho] at hi
        simp at hi
      · simp [ho]
  · rw [if_pos hs]
    rfl

theorem tls_callback_loopF_isSome (data : List Nat) :
    ∀ size fuel pos, data.length - pos < size * fuel →
      (tls_callback_loopF data size fuel pos).isSome = true := by
  intro size fuel
  induction fuel with
  | zero => intro pos h; simp at h
  | succ f ih =>
    intro pos h
    simp only [tls_callback_loopF]
    apply tls_callback_step_isSome
    intro q hq hsize hfull
    apply ih
    rw [Nat.mul_succ] at h
    omega

theorem freadBytes_pos_le (data : List Nat) (pos n : Nat) :
    pos ≤ (freadBytes data pos n).2 := by
  simp [freadBytes]

theorem cert_step_payload_isSome
    (rec : Nat → Nat → Option (Bool × Nat × List WinCertificate))
    (remaining len rev ty : Nat) (pb : List Nat) (p2 : Nat)
    (hrec : ∀ q r2, p2 ≤ q → (rec q r2).isSome = true) :
    (cert_step_payload rec remaining len rev ty (pb, p2)).isSome = true := by
  simp only [cert_step_payload]
  by_cases hq : pb.length ≠ usub32 len 8
  · rw [if_pos hq]
    rfl
  · rw [if_neg hq]
    by_cases hpad : len % 8 ≠ 0 ∧ usub32 remaining len ≠ 0
    · rw [if_pos hpad]
      rcases ho : rec (p2 + len % 8) (usub32 (usub32 remaining len) (len % 8)) with _ | t
      · have hi := hrec (p2 + len % 8) (usub32 (usub32 remaining len) (len % 8)) (by omega)
        rw [ho] at hi
        simp at hi
      · simp [ho]
    · rw [if_neg hpad]
      rcases ho : rec p2 (usub32 remaining len) with _ | t
      · have hi := hrec p2 (usub32 remaining len) (le_refl p2)
        rw [ho] at hi
        simp at hi
      · simp [ho]

theorem cert_step_body_isSome (knownRev knownType : Nat → Bool) (data : List Nat)
    (rec : Nat → Nat → Option (Bool × Nat × List WinCertificate))
    (remaining p1 len rev ty : Nat)
    (hrec : ∀ q r2, p1 ≤ q → (rec q r2).isSome = true) :
    (cert_step_body knownRev knownType data rec remaining p1 len rev ty).isSome = true := by
  simp only [cert_step_body]
  by_cases hg : knownType ty = false ∧ knownRev rev = false
  · rw [if_pos hg]
    rfl
  · rw [if_neg hg]
    by_cases hlt : len < remaining
    · rw [if_pos hlt]
      rfl
    · rw [if_neg hlt]
      have hple := freadBytes_pos_le data p1 (usub32 len 8)
      rcases hf : freadBytes data p1 (usub32 len 8) with ⟨pb, p2⟩
      rw [hf] at hple
      simp only at hple
      exact cert_step_payload_isSome rec remaining len rev ty pb p2
        (fun q r2 hq => hrec q r2 (by omega))

theorem cert_step_hdr_isSome (knownRev knownType : Nat → Bool) (data : List Nat)
    (rec : Nat → Nat → Option (Bool × Nat × List WinCertificate))
    (remaining : Nat) (hb : List Nat) (p1 : Nat)
    (hrec : hb.length = 8 → ∀ q r2, p1 ≤ q → (rec q r2).isSome = true) :
    (cert_step_hdr knownRev knownType data rec remaining (hb, p1)).isSome = true := by
  simp only [cert_step_hdr]
  by_cases h8 : hb.length ≠ 8
  · rw [if_pos h8]
    rfl
  · rw [if_neg h8]
    exact cert_step_body_isSome knownRev knownType data rec remaining p1 _ _ _
      (hrec (not_not.mp h8))

theorem cert_step_isSome (knownRev knownType : Nat → Bool) (data : List Nat)
    (rec : Nat → Nat → Option (Bool × Nat × List WinCertificate)) (pos rem : Nat)
    (hrec : ∀ q r2, pos + 8 ≤ q → 8 ≤ data.length - pos → (rec q r2).isSome = true) :
    (cert_step knownRev knownType data rec pos rem).isSome = true := by
  simp only [cert_step]
  by_cases h0 : rem ≤ 8
  · rw [if_pos h0]
    rfl
  · rw [if_neg h0]
    rcases hf : freadBytes data pos 8 with ⟨hb, p1⟩
    apply cert_step_hdr_isSome
    intro h8 q r2 hq
    have hparts : (data.drop pos).take 8 = hb ∧ pos + ((data.drop pos).take 8).length = p1 := by
      have := hf
      simp only [freadBytes, Prod.mk.injEq] at this
      exact this
    have hlen8 : ((data.drop pos).take 8).length = 8 := by
      rw [hparts.1, h8]
    have h8le : 8 ≤ data.length - pos := take8_full_le data pos hlen8
    apply hrec q r2 _ h8le
    have hp1 : p1 = pos + 8 := by
      rw [← hparts.2, hlen8]
    omega

theorem cert_loopF_isSome (knownRev knownType : Nat → Bool) (data : List Nat) :
    ∀ fuel pos remaining, data.length - pos < 8 * fuel →
      (cert_loopF knownRev knownType data fuel pos remaining).isSome = true := by
  intro fuel
  induction fuel with
  | zero => intro pos rem h; omega
  | succ f ih =>
    intro pos rem h
    simp only [cert_loopF]
    apply cert_step_isSome
    intro q r2 hq hpos
    exact ih q r2 (by omega)

/-- C10: the block-reading loops of the relocation, TLS-callback and
certificate parsers terminate on every finite stream: each iteration consumes
at least the bytes of its mandatory read (8 header bytes for relocations and
certificates, the pointer width for TLS callbacks) or returns, so with fuel
exceeding the remaining stream length divided by that step no loop can exhaust
its fuel — in particular the certificate loop terminates even when
`remaining_bytes -= cert->Length` wraps around below zero, because the
wrapped counter never stops the stream itself from shrinking. -/
theorem c10_parser_loops_terminate :
    (∀ data fuel pos remaining, data.length - pos < 8 * fuel →
      (reloc_loopF data fuel pos remaining).isSome = true) ∧
    (∀ data size fuel pos, data.length - pos < size * fuel →
      (tls_callback_loopF data size fuel pos).isSome = true) ∧
    (∀ knownRev knownType data fuel pos remaining, data.length - pos < 8 * fuel →
      (cert_loopF knownRev knownType data fuel pos remaining).isSome = true) :=
  ⟨fun data fuel pos rem h => reloc_loopF_isSome data fuel pos rem h,
   fun data size fuel pos h => tls_callback_loopF_isSome data size fuel pos h,
   fun kr kt data fuel pos rem h => cert_loopF_isSome kr kt data fuel pos rem h⟩

/-- Witness for C10: each loop, run on concrete streams with the fuel bound of
the theorem, returns. -/
theorem c10_witness :
    (reloc_loopF [0, 0, 0, 0, 12, 0, 0, 0] 2 0 7).isSome = true ∧
    (tls_callback_loopF [9, 0, 0, 0, 0, 0, 0, 0] 4 3 0).isSome = true ∧
    (cert_loopF (fun _ => false) (fun _ => true) [16, 0, 0, 0, 0, 2, 2, 0] 2 0 9).isSome
      = true :=
  ⟨c10_parser_loops_terminate.1 [0, 0, 0, 0, 12, 0, 0, 0] 2 0 7 (by decide),
   c10_parser_loops_terminate.2.1 [9, 0, 0, 0, 0, 0, 0, 0] 4 3 0 (by decide),
   c10_parser_loops_terminate.2.2 (fun _ => false) (fun _ => true)
     [16, 0, 0, 0, 0, 2, 2, 0] 2 0 9 (by decide)⟩

/-- Little-endian encoding of a 16-bit value, for describing well-formed
relocation entries on disk. -/
def u16le (v : Nat) : List Nat := [v % 256, v / 256 % 256]

/-- Little-endian encoding of a 32-bit value. -/
def u32le (v : Nat) : List Nat :=
  [v % 256, v / 256 % 256, v / 65536 % 256, v / 16777216 % 256]

/-- On-disk encoding of one relocation block: the `{PageRVA, BlockSize}` header
followed by the 16-bit type/offset entries. -/
def encodeRelocBlock (b : RelocBlock) : List Nat :=
  u32le b.pageRVA ++ u32le b.blockSize ++ (b.typesOffsets.map u16le).flatten

/-- On-disk encoding of a sequence of relocation blocks. -/
def encodeRelocBlocks (bs : List RelocBlock) : List Nat := (bs.map encodeRelocBlock).flatten

/-- A well-formed relocation block: `BlockSize` is the 8-byte header plus two
bytes per entry, fields fit their on-disk widths. -/
def relocWF (b : RelocBlock) : Prop :=
  b.blockSize = 8 + 2 * b.typesOffsets.length ∧ b.blockSize < 4294967296 ∧
  b.pageRVA < 4294967296 ∧ ∀ v ∈ b.typesOffsets, v < 65536

/-- Total declared size of a block sequence (the directory's `Size` when it is
exactly consumed). -/
def relocTotalSize (bs : List RelocBlock) : Nat := (bs.map RelocBlock.blockSize).sum

theorem leBytes_append (xs ys : List Nat) :
    leBytes (xs ++ ys) = leBytes xs + 256 ^ xs.length * leBytes ys := by
  induction xs with
  | nil => simp [leBytes]
  | cons b bs ih => simp [leBytes, ih]; ring

theorem leBytes_u16le (v : Nat) (h : v < 65536) : leBytes (u16le v) = v := by
  simp only [u16le, leBytes]
  omega

theorem leBytes_u32le (v : Nat) (h : v < 4294967296) : leBytes (u32le v) = v := by
  simp only [u32le, leBytes]
  omega

theorem u32le_length (v : Nat) : (u32le v).length = 4 := rfl

theorem u16join_length (vs : List Nat) : ((vs.map u16le).flatten).length = 2 * vs.length := by
  induction vs with
  | nil => simp
  | cons v tl ih => simp [u16le, ih]; ring

theorem encodeRelocBlock_length (b : RelocBlock) :
    (encodeRelocBlock b).length = 8 + 2 * b.typesOffsets.length := by
  rw [encodeRelocBlock]
  simp only [List.length_append, u32le_length, u16join_length]

theorem encodeRelocBlocks_cons (b : RelocBlock) (tl : List RelocBlock) :
    encodeRelocBlocks (b :: tl) = encodeRelocBlock b ++ encodeRelocBlocks tl := by
  simp [encodeRelocBlocks]

theorem relocTotalSize_cons (b : RelocBlock) (tl : List RelocBlock) :
    relocTotalSize (b :: tl) = b.blockSize + relocTotalSize tl := by
  simp [relocTotalSize]

theorem encodeRelocBlocks_length_ge (bs : List RelocBlock) :
    bs.length ≤ (encodeRelocBlocks bs).length := by
  induction bs with
  | nil => simp [encodeRelocBlocks]
  | cons b tl ih =>
    rw [encodeRelocBlocks_cons]
    simp only [List.length_append, List.length_cons, encodeRelocBlock_length]
    omega

theorem usub32_sub (x y : Nat) (h1 : y ≤ x) (h2 : x < 4294967296) : usub32 x y = x - y := by
  unfold usub32
  omega

theorem read_u16s_encode (data : List Nat) :
    ∀ (vs : List Nat) (pos : Nat) (rest : List Nat),
      data.drop pos = (vs.map u16le).flatten ++ rest → (∀ v ∈ vs, v < 65536) →
      read_u16s data pos vs.length = (some vs, pos + 2 * vs.length) := by
  intro vs
  induction vs with
  | nil =>
    intro pos rest hdrop hv
    simp [read_u16s]
  | cons v tl ih =>
    intro pos rest hdrop hv
    have hdrop1 : data.drop pos = u16le v ++ ((tl.map u16le).flatten ++ rest) := by
      simpa [List.append_assoc] using hdrop
    have htake : (data.drop pos).take 2 = u16le v := by
      rw [hdrop1]
      exact List.take_left' rfl
    have hval : leBytes ((data.drop pos).take 2) = v := by
      rw [htake]
      exact leBytes_u16le v (hv v (List.mem_cons_self v tl))
    have hlen2 : ((data.drop pos).take 2).length = 2 := by rw [htake]; rfl
    have hdrop2 : data.drop (pos + 2) = (tl.map u16le).flatten ++ rest := by
      have := congrArg (List.drop 2) hdrop1
      rw [List.drop_drop] at this
      rw [this]
      exact List.drop_left' rfl
    have hrec := ih (pos + 2) rest hdrop2 (fun w hw => hv w (List.mem_cons_of_mem v hw))
    simp only [List.length_cons, read_u16s, readU, freadBytes, hval, hlen2, if_true]
    rw [hrec]
    simp only [Prod.mk.injEq, Option.some.injEq]
    exact ⟨trivial, by omega⟩

theorem reloc_loopF_encode :
    ∀ (bs : List RelocBlock) (fuel : Nat) (pre rest : List Nat),
      bs.length < fuel → (∀ b ∈ bs, relocWF b) →
      reloc_loopF (pre ++ (encodeRelocBlocks bs ++ rest)) fuel pre.length (relocTotalSize bs)
        = some (true, pre.length + (encodeRelocBlocks bs).length, bs) := by
  intro bs
  induction bs with
  | nil =>
    intro fuel pre rest hf _
    rcases fuel with _ | f
    · omega
    · simp only [reloc_loopF]
      simp only [reloc_step]
      rw [if_pos (show relocTotalSize ([] : List RelocBlock) = 0 by simp [relocTotalSize])]
      simp [encodeRelocBlocks]
  | cons b tl ih =>
    intro fuel pre rest hf hwf
    rcases fuel with _ | f
    · omega
    obtain ⟨hsz, hlt32, hrva, hvals⟩ := hwf b (List.mem_cons_self b tl)
    set data := pre ++ (encodeRelocBlocks (b :: tl) ++ rest) with hdata
    have hencons := encodeRelocBlocks_cons b tl
    have hdrop1 : data.drop pre.length
        = (u32le b.pageRVA ++ u32le b.blockSize) ++
          ((b.typesOffsets.map u16le).flatten ++ (encodeRelocBlocks tl ++ rest)) := by
      rw [hdata, List.drop_left, hencons, encodeRelocBlock]
      simp [List.append_assoc]
    have htake8 : (data.drop pre.length).take 8 = u32le b.pageRVA ++ u32le b.blockSize := by
      rw [hdrop1]
      exact List.take_left' (by simp [u32le])
    have hhdr_take : (u32le b.pageRVA ++ u32le b.blockSize).take 4 = u32le b.pageRVA :=
      List.take_left' (u32le_length _)
    have hhdr_drop : (u32le b.pageRVA ++ u32le b.blockSize).drop 4 = u32le b.blockSize :=
      List.drop_left' (u32le_length _)
    have hcount : usub32 b.blockSize 8 / 2 = b.typesOffsets.length := by
      rw [usub32_sub b.blockSize 8 (by omega) hlt32]
      omega
    have hdropE : data.drop (pre.length + 8)
        = (b.typesOffsets.map u16le).flatten ++ (encodeRelocBlocks tl ++ rest) := by
      have h2 := congrArg (List.drop 8) hdrop1
      rw [List.drop_drop] at h2
      rw [h2]
      exact List.drop_left' (by simp [u32le])
    have hread := read_u16s_encode data b.typesOffsets (pre.length + 8)
      (encodeRelocBlocks tl ++ rest) hdropE hvals
    have hassoc : data = (pre ++ encodeRelocBlock b) ++ (encodeRelocBlocks tl ++ rest) := by
      rw [hdata, hencons]
      simp [List.append_assoc]
    have hpre1 : (pre ++ encodeRelocBlock b).length
        = pre.length + (8 + 2 * b.typesOffsets.length) := by
      simp [encodeRelocBlock_length]
    have hihres := ih f (pre ++ encodeRelocBlock b) rest (by
        have := hf
        simp only [List.length_cons] at this
        omega)
      (fun x hx => hwf x (List.mem_cons_of_mem b hx))
    rw [← hassoc, hpre1] at hihres
    rw [← Nat.add_assoc] at hihres
    have hrem0 : ¬ (b.blockSize + relocTotalSize tl = 0) := by omega
    have hnotbs : ¬ (b.blockSize > b.blockSize + relocTotalSize tl) := by omega
    have hsub : b.blockSize + relocTotalSize tl - b.blockSize = relocTotalSize tl := by omega
    rw [relocTotalSize_cons]
    simp only [reloc_loopF]
    simp only [reloc_step, freadBytes]
    rw [if_neg hrem0, htake8]
    have hlen8 : (u32le b.pageRVA ++ u32le b.blockSize).length = 8 := by simp [u32le]
    rw [hlen8]
    rw [if_neg (fun hc => hc rfl)]
    rw [hhdr_take, hhdr_drop, leBytes_u32le b.pageRVA hrva, leBytes_u32le b.blockSize hlt32]
    rw [if_neg hnotbs, hcount, hread]
    simp only [hsub]
    rw [hihres]
    simp only [Option.map_some', Option.some.injEq, Prod.mk.injEq]
    refine ⟨trivial, ?_, trivial⟩
    rw [hencons]
    simp only [List.length_append, encodeRelocBlock_length]
    omega

/-- C7: the relocation parser (after reaching the directory, it is the loop of
`PE::_parse_relocations` on the declared `Size`) (0) is what
`parse_relocations` runs; (1) succeeds on any directory whose declared size is
exactly consumed by well-formed sequential blocks, appending every block with
exactly `(BlockSize - 8) / 2` entries; (2) fails on a short block-header read;
(3) fails when a header declares `BlockSize` greater than the remaining
declared size; (4) fails when the 16-bit entry reads come up short. -/
instance (b : RelocBlock) : Decidable (relocWF b) := by
  unfold relocWF
  infer_instance

theorem c7_parse_relocations :
    (∀ (ctx : PECtx) (data : List Nat) (pos q : Nat) (d : ImageDataDirectory),
      reach_directory ctx pos IMAGE_DIRECTORY_ENTRY_BASERELOC = .ok (true, q) →
      ctx.directories[IMAGE_DIRECTORY_ENTRY_BASERELOC]? = some d →
      parse_relocations ctx data pos = .ok (reloc_loop data q d.size)) ∧
    (∀ (pre rest : List Nat) (bs : List RelocBlock), (∀ b ∈ bs, relocWF b) →
      reloc_loop (pre ++ (encodeRelocBlocks bs ++ rest)) pre.length (relocTotalSize bs)
        = (true, pre.length + (encodeRelocBlocks bs).length, bs)) ∧
    (∀ (data : List Nat) (pos rem : Nat), 0 < rem →
      ((data.drop pos).take 8).length < 8 → (reloc_loop data pos rem).1 = false) ∧
    (∀ (data : List Nat) (pos rem : Nat), 0 < rem →
      ((data.drop pos).take 8).length = 8 →
      rem < leBytes (((data.drop pos).take 8).drop 4) →
      (reloc_loop data pos rem).1 = false) ∧
    (∀ (data : List Nat) (pos rem : Nat), 0 < rem →
      ((data.drop pos).take 8).length = 8 →
      leBytes (((data.drop pos).take 8).drop 4) ≤ rem →
      (read_u16s data (pos + 8)
        (usub32 (leBytes (((data.drop pos).take 8).drop 4)) 8 / 2)).1 = none →
      (reloc_loop data pos rem).1 = false) := by
  refine ⟨?_, ?_, ?_, ?_, ?_⟩
  · intro ctx data pos q d h1 h2
    simp [parse_relocations, h1, h2]
  · intro pre rest bs hwf
    unfold reloc_loop
    have hfuel : bs.length < (pre ++ (encodeRelocBlocks bs ++ rest)).length + 1 := by
      have h1 := encodeRelocBlocks_length_ge bs
      simp only [List.length_append]
      omega
    rw [reloc_loopF_encode bs ((pre ++ (encodeRelocBlocks bs ++ rest)).length + 1)
      pre rest hfuel hwf]
    rfl
  · intro data pos rem h0 hshort
    unfold reloc_loop
    simp only [reloc_loopF]
    simp only [reloc_step, freadBytes]
    rw [if_neg (by omega : ¬ rem = 0)]
    rw [if_pos (by omega : ((data.drop pos).take 8).length ≠ 8)]
    rfl
  · intro data pos rem h0 hfull hgt
    unfold reloc_loop
    simp only [reloc_loopF]
    simp only [reloc_step, freadBytes]
    rw [if_neg (by omega : ¬ rem = 0), hfull]
    rw [if_neg (fun hc => hc rfl)]
    rw [if_pos hgt]
    rfl
  · intro data pos rem h0 hfull hle hnone
    unfold reloc_loop
    simp only [reloc_loopF]
    simp only [reloc_step, freadBytes]
    rw [if_neg (by omega : ¬ rem = 0), hfull]
    rw [if_neg (fun hc => hc rfl)]
    rw [if_neg (by omega : ¬ leBytes (((data.drop pos).take 8).drop 4) > rem)]
    rcases hpair : read_u16s data (pos + 8)
        (usub32 (leBytes (((data.drop pos).take 8).drop 4)) 8 / 2) with ⟨o, p2⟩
    rw [hpair] at hnone
    simp only at hnone
    subst hnone
    rfl

/-- Witness for C7: a concrete two-block directory of size 22 parses
completely with entry counts 2 and 1; a 3-byte stream fails the header read; a
header declaring `BlockSize` 99 against remaining size 5 fails; a block
promising 2 entries over a stream that ends after one fails. -/
theorem c7_witness :
    parse_relocations
        ⟨[], List.replicate 5 ⟨0, 0⟩ ++ [⟨10, 20⟩], 0, false⟩
        (List.replicate 10 0 ++ [0, 0, 0, 0, 12, 0, 0, 0, 5, 0, 6, 0] ++ [0, 0]) 0
      = .ok (reloc_loop
          (List.replicate 10 0 ++ [0, 0, 0, 0, 12, 0, 0, 0, 5, 0, 6, 0] ++ [0, 0]) 10 20) ∧
    reloc_loop ([] ++ (encodeRelocBlocks [⟨0, 12, [5, 6]⟩, ⟨4096, 10, [9]⟩] ++ []))
        (List.length ([] : List Nat))
        (relocTotalSize [⟨0, 12, [5, 6]⟩, ⟨4096, 10, [9]⟩])
      = (true, List.length ([] : List Nat) +
          (encodeRelocBlocks [⟨0, 12, [5, 6]⟩, ⟨4096, 10, [9]⟩]).length,
          [⟨0, 12, [5, 6]⟩, ⟨4096, 10, [9]⟩]) ∧
    (reloc_loop [1, 2, 3] 0 7).1 = false ∧
    (reloc_loop [0, 0, 0, 0, 99, 0, 0, 0] 0 5).1 = false ∧
    (reloc_loop [0, 0, 0, 0, 12, 0, 0, 0, 1, 0] 0 20).1 = false :=
  ⟨c7_parse_relocations.1 ⟨[], List.replicate 5 ⟨0, 0⟩ ++ [⟨10, 20⟩], 0, false⟩
      (List.replicate 10 0 ++ [0, 0, 0, 0, 12, 0, 0, 0, 5, 0, 6, 0] ++ [0, 0]) 0 10 ⟨10, 20⟩
      (by rfl) (by rfl),
   c7_parse_relocations.2.1 [] [] [⟨0, 12, [5, 6]⟩, ⟨4096, 10, [9]⟩] (by decide),
   c7_parse_relocations.2.2.1 [1, 2, 3] 0 7 (by decide) (by decide),
   c7_parse_relocations.2.2.2.1 [0, 0, 0, 0, 99, 0, 0, 0] 0 5 (by decide) (by decide)
     (by decide),
   c7_parse_relocations.2.2.2.2 [0, 0, 0, 0, 12, 0, 0, 0, 1, 0] 0 20 (by decide) (by decide)
     (by decide) (by decide)⟩

theorem reloc_loopF_blocks_complete (data : List Nat) :
    ∀ fuel pos rem,
      ∀ blk ∈ ((reloc_loopF data fuel pos rem).getD (true, 0, [])).2.2,
        blk.typesOffsets.length = usub32 blk.blockSize 8 / 2 := by
  intro fuel
  induction fuel with
  | zero =>
    intro pos rem blk hblk
    simp [reloc_loopF] at hblk
  | succ f ih =>
    intro pos rem
    simp only [reloc_loopF]
    simp only [reloc_step, freadBytes]
    by_cases h0 : rem = 0
    · rw [if_pos h0]
      intro blk hblk
      simp at hblk
    · rw [if_neg h0]
      by_cases h8 : ((data.drop pos).take 8).length = 8
      · rw [h8]
        rw [if_neg (fun hc => hc rfl)]
        by_cases hbs : leBytes (((data.drop pos).take 8).drop 4) > rem
        · rw [if_pos hbs]
          intro blk hblk
          simp at hblk
        · rw [if_neg hbs]
          rcases hpair : read_u16s data (pos + 8)
              (usub32 (leBytes (((data.drop pos).take 8).drop 4)) 8 / 2) with ⟨o, p2⟩
          cases o with
          | none =>
            intro blk hblk
            simp at hblk
          | some vs =>
            dsimp only
            rcases hrec : reloc_loopF data f p2
                (rem - leBytes (((data.drop pos).take 8).drop 4)) with _ | t
            · intro blk hblk
              simp at hblk
            · intro blk hblk
              simp only [Option.map_some', Option.getD_some] at hblk
              rcases List.mem_cons.mp hblk with hhead | htail
              · subst hhead
                exact read_u16s_length data _ (pos + 8) vs p2 hpair
              · exact ih p2 (rem - leBytes (((data.drop pos).take 8).drop 4)) blk
                  (by rw [hrec]; exact htail)
      · rw [if_pos h8]
        intro blk hblk
        simp at hblk

/-- C5 (amended): a directory parser returning failure does not reset its
structure to the zeroed state — the relocation parser can return `false` with
the blocks completed before the failing read still appended (see the
counterexample) — but every block it ever appends, on success or failure, is
individually complete, carrying exactly `(BlockSize - 8) / 2` type/offset
entries in 32-bit unsigned arithmetic. -/
theorem c5_amended_blocks_complete :
    ∀ (data : List Nat) (pos rem : Nat), ∀ blk ∈ (reloc_loop data pos rem).2.2,
      blk.typesOffsets.length = usub32 blk.blockSize 8 / 2 := by
  intro data pos rem blk hblk
  unfold reloc_loop at hblk
  apply reloc_loopF_blocks_complete data (data.length + 1) pos rem blk
  rcases ho : reloc_loopF data (data.length + 1) pos rem with _ | res
  · rw [ho] at hblk
    simp at hblk
  · rw [ho] at hblk
    exact hblk

/-- C5, counterexample: on this stream the relocation directory declares 20
bytes; the first 12-byte block parses completely, the second block's header
read is short, and the parser returns `false` with the first block still in the
list — not the zeroed (empty) state the claim requires after a failure. -/
theorem c5_counterexample_partial_on_failure :
    parse_relocations ⟨[], List.replicate 5 ⟨0, 0⟩ ++ [⟨10, 20⟩], 0, false⟩
        (List.replicate 10 0 ++ [0, 0, 0, 0, 12, 0, 0, 0, 5, 0, 6, 0] ++ [0, 0]) 0
      = .ok (false, 24, [⟨0, 12, [5, 6]⟩]) ∧
    ([⟨0, 12, [5, 6]⟩] : List RelocBlock) ≠ [] :=
  ⟨by rfl, by decide⟩

/-- Witness for C5: the block retained by the failing parse above is complete,
by the amended theorem. -/
theorem c5_witness :
    (⟨0, 12, [5, 6]⟩ : RelocBlock) ∈
      (reloc_loop (List.replicate 10 0 ++ [0, 0, 0, 0, 12, 0, 0, 0, 5, 0, 6, 0] ++ [0, 0])
        10 20).2.2 ∧
    (⟨0, 12, [5, 6]⟩ : RelocBlock).typesOffsets.length
      = usub32 (⟨0, 12, [5, 6]⟩ : RelocBlock).blockSize 8 / 2 :=
  ⟨by decide,
   c5_amended_blocks_complete
     (List.replicate 10 0 ++ [0, 0, 0, 0, 12, 0, 0, 0, 5, 0, 6, 0] ++ [0, 0]) 10 20
     ⟨0, 12, [5, 6]⟩ (by decide)⟩

/-- One exported function as built by `PE::_parse_exports`.  Modelled from the
spec (the `exported_function` struct declaration is not among the sources):
address, ordinal `Base + index` (spec §4.5), and the two strings, modelled as
byte lists, empty when unset (`std::string` default-constructs empty). -/
structure ExportedFunction where
  address : Nat
  ordinal : Nat
  name : List Nat
  forwardName : List Nat
deriving DecidableEq

/-- The fixed-size `IMAGE_EXPORT_DIRECTORY` prefix read by `PE::_parse_exports`
(nine 32-bit fields and two 16-bit fields, 40 bytes, excluding the trailing
name-storage field). -/
structure ImageExportDirectory where
  characteristics : Nat
  timeDateStamp : Nat
  majorVersion : Nat
  minorVersion : Nat
  name : Nat
  base : Nat
  numberOfFunctions : Nat
  numberOfNames : Nat
  addressOfFunctions : Nat
  addressOfNames : Nat
  addressOfNameOrdinals : Nat
deriving DecidableEq

/-- Modelled from the spec: the on-disk layout of `IMAGE_EXPORT_DIRECTORY`
(the header declaring `image_export_directory` is not among the sources; spec
§4.5 sizes it as nine u32 and two u16 fields).  Field order is the standard PE
layout: Characteristics, TimeDateStamp, MajorVersion, MinorVersion, Name, Base,
NumberOfFunctions, NumberOfNames, AddressOfFunctions, AddressOfNames,
AddressOfNameOrdinals. -/
def decodeIED (b : List Nat) : ImageExportDirectory :=
  ⟨leBytes (b.take 4), leBytes ((b.drop 4).take 4), leBytes ((b.drop 8).take 2),
   leBytes ((b.drop 10).take 2), leBytes ((b.drop 12).take 4), leBytes ((b.drop 16).take 4),
   leBytes ((b.drop 20).take 4), leBytes ((b.drop 24).take 4), leBytes ((b.drop 28).take 4),
   leBytes ((b.drop 32).take 4), leBytes ((b.drop 36).take 4)⟩

/-- Modelled from the spec: `utils::read_string_at_offset` (in `utils.cpp`, not
among the sources) resolves the NUL-terminated string at a file offset, leaving
the stream position unchanged, and fails when no terminator is found before the
end of the stream. -/
def readStringAt (data : List Nat) (offset : Nat) : Option (List Nat) :=
  if (data.drop offset).contains 0 then some ((data.drop offset).takeWhile (fun b => b ≠ 0))
  else none

/-- `_exports.at(ords[i])->Name = s`: overwrite the `Name` of element `i`. -/
def setExportName : List ExportedFunction → Nat → List Nat → List ExportedFunction
  | [], _, _ => []
  | e :: t, 0, s => {e with name := s} :: t
  | e :: t, j + 1, s => e :: setExportName t j s

/-- Decode a byte buffer as consecutive little-endian 32-bit values (the
`names` array of `PE::_parse_exports`). -/
def decodeU32s : List Nat → List Nat
  | b0 :: b1 :: b2 :: b3 :: rest => leBytes [b0, b1, b2, b3] :: decodeU32s rest
  | _ => []

/-- Decode a byte buffer as consecutive little-endian 16-bit values (the
`ords` array of `PE::_parse_exports`). -/
def decodeU16s : List Nat → List Nat
  | b0 :: b1 :: rest => leBytes [b0, b1] :: decodeU16s rest
  | _ => []

/-- Number of entries with a non-empty `Name`. -/
def countNamed (l : List ExportedFunction) : Nat :=
  l.countP (fun e => !e.name.isEmpty)

/-- One iteration of the function-address loop of `PE::_parse_exports` (`rec`
is the remainder of the loop, `i` the loop counter): read a 4-byte address,
assign ordinal `Base + i`; when the address falls strictly inside the export
directory's virtual range (computed in 32-bit unsigned arithmetic), resolve a
forwarder string, failing on the zero sentinel or an unresolvable string; a
failure returns `false` keeping the entries pushed so far. -/
def read_export_step (ctx : PECtx) (data : List Nat) (base : Nat)
    (exportDir : ImageDataDirectory) (rec : Nat → Nat → Bool × List ExportedFunction × Nat)
    (pos i : Nat) : Bool × List ExportedFunction × Nat :=
  match readU data pos 4 with
  | (none, p) => (false, [], p)
  | (some addr, p) =>
    if addr > exportDir.virtualAddress ∧
        addr < (exportDir.virtualAddress + exportDir.size) % 4294967296 then
      match (if rva_to_offset ctx.sections addr = 0 then none
             else readStringAt data (rva_to_offset ctx.sections addr)) with
      | none => (false, [], p)
      | some s =>
        let r := rec p (i + 1)
        (r.1, ⟨addr, base + i, [], s⟩ :: r.2.1, r.2.2)
    else
      let r := rec p (i + 1)
      (r.1, ⟨addr, base + i, [], []⟩ :: r.2.1, r.2.2)

/-- The function-address loop of `PE::_parse_exports`, reading
`NumberOfFunctions` 4-byte RVAs. -/
def read_export_functions (ctx : PECtx) (data : List Nat) (base : Nat)
    (exportDir : ImageDataDirectory) : Nat → Nat → Nat → Bool × List ExportedFunction × Nat
  | 0, pos, _ => (true, [], pos)
  | n + 1, pos, i =>
    read_export_step ctx data base exportDir
      (read_export_functions ctx data base exportDir n) pos i

/-- The name-matching loop of `PE::_parse_exports` over the zipped
name-RVA/name-ordinal tables.  The source tests `ords[i] > _exports.size()`
— `>` rather than `>=` — before evaluating `_exports.at(ords[i])`, so an
ordinal equal to the list size passes the test and `at` throws
`std::out_of_range`, modelled as `Except.error`. -/
def match_export_names (ctx : PECtx) (data : List Nat) :
    List (Nat × Nat) → List ExportedFunction → Except Unit (Bool × List ExportedFunction)
  | [], exports => .ok (true, exports)
  | (nrva, o) :: rest, exports =>
    if rva_to_offset ctx.sections nrva = 0 then .ok (false, exports)
    else if o > exports.length then .ok (false, exports)
    else if o = exports.length then .error ()
    else
      match readStringAt data (rva_to_offset ctx.sections nrva) with
      | none => .ok (false, exports)
      | some s => match_export_names ctx data rest (setExportName exports o s)

/-- Final stage of `PE::_parse_exports`: run the name-matching loop; the
position after the ordinal-table read is `p4`. -/
def parse_exports_match (ctx : PECtx) (data : List Nat) (p4 : Nat)
    (pairs : List (Nat × Nat)) (exports : List ExportedFunction) :
    Except Unit (Bool × Nat × List ExportedFunction) :=
  match match_export_names ctx data pairs exports with
  | .error e => .error e
  | .ok (b, l) => .ok (b, p4, l)

/-- Ordinal-table stage of `PE::_parse_exports`: translate
`AddressOfNameOrdinals`, read `2 * NumberOfNames` bytes, then match names. -/
def parse_exports_ords (ctx : PECtx) (data : List Nat) (ied : ImageExportDirectory)
    (names : List Nat) (p3 : Nat) (exports : List ExportedFunction) :
    Except Unit (Bool × Nat × List ExportedFunction) :=
  if rva_to_offset ctx.sections ied.addressOfNameOrdinals = 0 then .ok (false, p3, exports)
  else
    let ob := freadBytes data (rva_to_offset ctx.sections ied.addressOfNameOrdinals)
      (2 * ied.numberOfNames)
    if ob.1.length ≠ 2 * ied.numberOfNames then .ok (false, ob.2, exports)
    else parse_exports_match ctx data ob.2 ((decodeU32s names).zip (decodeU16s ob.1)) exports

/-- Name-table stage of `PE::_parse_exports`: translate `AddressOfNames` and
read `4 * NumberOfNames` bytes. -/
def parse_exports_names (ctx : PECtx) (data : List Nat) (ied : ImageExportDirectory)
    (p2 : Nat) (exports : List ExportedFunction) :
    Except Unit (Bool × Nat × List ExportedFunction) :=
  if rva_to_offset ctx.sections ied.addressOfNames = 0 then .ok (false, p2, exports)
  else
    let nb := freadBytes data (rva_to_offset ctx.sections ied.addressOfNames)
      (4 * ied.numberOfNames)
    if nb.1.length ≠ 4 * ied.numberOfNames then .ok (false, nb.2, exports)
    else parse_exports_ords ctx data ied nb.1 nb.2 exports

/-- Function-table stage of `PE::_parse_exports`: translate
`AddressOfFunctions` and run the address loop; a loop failure returns `false`
with the entries pushed so far. -/
def parse_exports_funcs (ctx : PECtx) (data : List Nat) (ied : ImageExportDirectory)
    (p1 : Nat) : Except Unit (Bool × Nat × List ExportedFunction) :=
  if rva_to_offset ctx.sections ied.addressOfFunctions = 0 then .ok (false, p1, [])
  else
    let fr := read_export_functions ctx data ied.base
      (ctx.directories.getD IMAGE_DIRECTORY_ENTRY_EXPORT ⟨0, 0⟩) ied.numberOfFunctions
      (rva_to_offset ctx.sections ied.addressOfFunctions) 0
    if fr.1 = false then .ok (false, fr.2.2, fr.2.1)
    else parse_exports_names ctx data ied fr.2.2 fr.2.1

/-- Header stage of `PE::_parse_exports`: the argument pair is the result of
the 40-byte `IMAGE_EXPORT_DIRECTORY` read; then the exported DLL name is
resolved (`!offset || !read_string_at_offset(...)`). -/
def parse_exports_hdr (ctx : PECtx) (data : List Nat) :
    List Nat × Nat → Except Unit (Bool × Nat × List ExportedFunction)
  | (hb, p1) =>
    if hb.length ≠ 40 then .ok (false, p1, [])
    else
      let ied := decodeIED hb
      if rva_to_offset ctx.sections ied.name = 0 ∨
          readStringAt data (rva_to_offset ctx.sections ied.name) = none then
        .ok (false, p1, [])
      else parse_exports_funcs ctx data ied p1

/-- `PE::_parse_exports`. -/
def parse_exports (ctx : PECtx) (data : List Nat) (pos : Nat) :
    Except Unit (Bool × Nat × List ExportedFunction) :=
  match reach_directory ctx pos IMAGE_DIRECTORY_ENTRY_EXPORT with
  | .error e => .error e
  | .ok (false, p) => .ok (true, p, [])
  | .ok (true, p) => parse_exports_hdr ctx data (freadBytes data p 40)

/-- The context of the concrete export-directory examples: no sections (so RVAs
translate to themselves), export directory at file offset 100, size 200. -/
def exportCtx : PECtx := ⟨[], [⟨100, 200⟩] ++ List.replicate 15 ⟨0, 0⟩, 0, false⟩

/-- The 40-byte export-directory header shared by the concrete examples, with
`Base`, the table counts and the table offsets passed in. -/
def iedBytes (base nfun nnames aof aon aono : Nat) : List Nat :=
  List.replicate 12 0 ++ [10, 0, 0, 0] ++ [base, 0, 0, 0] ++ [nfun, 0, 0, 0] ++
    [nnames, 0, 0, 0] ++ [aof, 0, 0, 0] ++ [aon, 0, 0, 0] ++ [aono, 0, 0, 0]

/-- Concrete C4 input: one exported function, one name, and a name-ordinal
entry equal to `NumberOfFunctions`. -/
def exportDataC4 : List Nat :=
  List.replicate 10 0 ++ [65, 0] ++ List.replicate 88 0 ++
    iedBytes 1 1 1 140 144 148 ++ [50, 0, 0, 0] ++ [10, 0, 0, 0] ++ [1, 0]

/-- C4: the claim says an out-of-range name ordinal makes the export parser
return `false` rather than let an exception escape.  With `NumberOfFunctions =
1` and the single name-ordinal entry equal to 1 (= `_exports.size()`), the
source's guard `ords[i] > _exports.size()` passes, `_exports.at(1)` throws
`std::out_of_range`, and the exception escapes the parser (`Except.error` in
the model) instead of the `false` return the claim requires. -/
theorem c4_ordinal_bound_off_by_one :
    parse_exports exportCtx exportDataC4 0 = Except.error () := by rfl

/-- Concrete C6 input: two exported functions (`Base = 5`), two names, with
both name-ordinal entries pointing at index 0. -/
def exportDataC6 : List Nat :=
  List.replicate 10 0 ++ [65, 0] ++ List.replicate 88 0 ++
    iedBytes 5 2 2 140 148 156 ++ [50, 0, 0, 0, 60, 0, 0, 0] ++
    [10, 0, 0, 0, 10, 0, 0, 0] ++ [0, 0, 0, 0]

/-- C6, counterexample: this export directory declares `NumberOfFunctions = 2`
and `NumberOfNames = 2 ≤ 2`, and the parse succeeds — but both name-ordinal
entries select index 0, so the same entry is named twice and only 1 entry (not
`M = 2`) ends up with a non-empty name. -/
theorem c6_counterexample_duplicate_ordinals :
    parse_exports exportCtx exportDataC6 0
      = .ok (true, 160, [⟨50, 5, [65], []⟩, ⟨60, 6, [], []⟩]) ∧
    (decodeIED ((exportDataC6.drop 100).take 40)).numberOfFunctions = 2 ∧
    (decodeIED ((exportDataC6.drop 100).take 40)).numberOfNames = 2 ∧
    countNamed [⟨50, 5, [65], []⟩, ⟨60, 6, [], []⟩] = 1 :=
  ⟨by rfl, by rfl, by rfl, by rfl⟩

/-- Default element for `List.getD` reasoning over export lists. -/
def defaultExport : ExportedFunction := ⟨0, 0, [], []⟩

theorem setExportName_length (l : List ExportedFunction) :
    ∀ i s, (setExportName l i s).length = l.length := by
  induction l with
  | nil => intro i s; rfl
  | cons e t ih =>
    intro i s
    cases i with
    | zero => simp [setExportName]
    | succ j => simp [setExportName, ih]

theorem setExportName_getD_ordinal (l : List ExportedFunction) :
    ∀ i s j, ((setExportName l i s).getD j defaultExport).ordinal
      = (l.getD j defaultExport).ordinal := by
  induction l with
  | nil => intro i s j; rfl
  | cons e t ih =>
    intro i s j
    cases i with
    | zero =>
      cases j with
      | zero => rfl
      | succ j2 => rfl
    | succ i2 =>
      cases j with
      | zero => rfl
      | succ j2 =>
        show ((setExportName t i2 s).getD j2 defaultExport).ordinal
          = (t.getD j2 defaultExport).ordinal
        exact ih i2 s j2

theorem setExportName_getD_name_ne (l : List ExportedFunction) :
    ∀ i s j, j ≠ i → ((setExportName l i s).getD j defaultExport).name
      = (l.getD j defaultExport).name := by
  induction l with
  | nil => intro i s j _; rfl
  | cons e t ih =>
    intro i s j hne
    cases i with
    | zero =>
      cases j with
      | zero => exact absurd rfl hne
      | succ j2 => rfl
    | succ i2 =>
      cases j with
      | zero => rfl
      | succ j2 =>
        show ((setExportName t i2 s).getD j2 defaultExport).name
          = (t.getD j2 defaultExport).name
        exact ih i2 s j2 (fun hc => hne (by rw [hc]))

theorem countNamed_nil : countNamed [] = 0 := rfl

theorem countNamed_cons (e : ExportedFunction) (t : List ExportedFunction) :
    countNamed (e :: t) = countNamed t + (if !e.name.isEmpty then 1 else 0) := by
  simp [countNamed, List.countP_cons]

theorem countNamed_setExportName (l : List ExportedFunction) :
    ∀ i s, i < l.length → (l.getD i defaultExport).name = [] → s ≠ [] →
      countNamed (setExportName l i s) = countNamed l + 1 := by
  induction l with
  | nil => intro i s hi _ _; simp at hi
  | cons e t ih =>
    intro i s hi hempty hs
    cases i with
    | zero =>
      have he : e.name = [] := by simpa using hempty
      have hsne : s.isEmpty = false := by
        cases s with
        | nil => exact absurd rfl hs
        | cons a b => rfl
      simp [setExportName, countNamed_cons, he, hsne]
    | succ i2 =>
      have hi2 : i2 < t.length := by simpa using hi
      have hempty2 : (t.getD i2 defaultExport).name = [] := hempty
      show countNamed (e :: setExportName t i2 s) = countNamed (e :: t) + 1
      rw [countNamed_cons, countNamed_cons, ih i2 s hi2 hempty2 hs]
      omega

theorem decodeU32s_length : ∀ (k : Nat) (bs : List Nat), bs.length = 4 * k →
    (decodeU32s bs).length = k := by
  intro k
  induction k with
  | zero =>
    intro bs h
    have : bs = [] := List.length_eq_zero.mp (by omega)
    subst this
    rfl
  | succ k2 ih =>
    intro bs h
    match bs, h with
    | b0 :: b1 :: b2 :: b3 :: rest, h =>
      have hr : rest.length = 4 * k2 := by simp at h; omega
      simp [decodeU32s, ih rest hr]

theorem decodeU16s_length : ∀ (k : Nat) (bs : List Nat), bs.length = 2 * k →
    (decodeU16s bs).length = k := by
  intro k
  induction k with
  | zero =>
    intro bs h
    have : bs = [] := List.length_eq_zero.mp (by omega)
    subst this
    rfl
  | succ k2 ih =>
    intro bs h
    match bs, h with
    | b0 :: b1 :: rest, h =>
      have hr : rest.length = 2 * k2 := by simp at h; omega
      simp [decodeU16s, ih rest hr]

theorem read_export_functions_spec (ctx : PECtx) (data : List Nat) (base : Nat)
    (dir : ImageDataDirectory) :
    ∀ n pos i, (read_export_functions ctx data base dir n pos i).1 = true →
      (read_export_functions ctx data base dir n pos i).2.1.length = n ∧
      (∀ j, j < n →
        ((read_export_functions ctx data base dir n pos i).2.1.getD j defaultExport).ordinal
          = base + (i + j)) ∧
      (∀ j, ((read_export_functions ctx data base dir n pos i).2.1.getD j
        defaultExport).name = []) := by
  intro n
  induction n with
  | zero =>
    intro pos i _
    refine ⟨rfl, ?_, ?_⟩
    · intro j hj
      omega
    · intro j
      rfl
  | succ k ih =>
    intro pos i
    simp only [read_export_functions]
    simp only [read_export_step]
    rcases hu : readU data pos 4 with ⟨o, p⟩
    cases o with
    | none =>
      intro h
      simp at h
    | some addr =>
      dsimp only
      by_cases hf : addr > dir.virtualAddress ∧
          addr < (dir.virtualAddress + dir.size) % 4294967296
      · rw [if_pos hf]
        rcases hs : (if rva_to_offset ctx.sections addr = 0 then none
            else readStringAt data (rva_to_offset ctx.sections addr)) with _ | s
        · intro h
          simp at h
        · dsimp only
          intro h
          obtain ⟨ihl, iho, ihn⟩ := ih p (i + 1) h
          refine ⟨by simp [ihl], ?_, ?_⟩
          · intro j hj
            cases j with
            | zero =>
              show base + i = base + (i + 0)
              omega
            | succ j2 =>
              show ((read_export_functions ctx data base dir k p (i + 1)).2.1.getD j2
                defaultExport).ordinal = base + (i + (j2 + 1))
              rw [iho j2 (by omega)]
              omega
          · intro j
            cases j with
            | zero => rfl
            | succ j2 => exact ihn j2
      · rw [if_neg hf]
        dsimp only
        intro h
        obtain ⟨ihl, iho, ihn⟩ := ih p (i + 1) h
        refine ⟨by simp [ihl], ?_, ?_⟩
        · intro j hj
          cases j with
          | zero =>
            show base + i = base + (i + 0)
            omega
          | succ j2 =>
            show ((read_export_functions ctx data base dir k p (i + 1)).2.1.getD j2
              defaultExport).ordinal = base + (i + (j2 + 1))
            rw [iho j2 (by omega)]
            omega
        · intro j
          cases j with
          | zero => rfl
          | succ j2 => exact ihn j2

theorem match_export_names_spec (ctx : PECtx) (data : List Nat) :
    ∀ (pairs : List (Nat × Nat)) (exports l : List ExportedFunction),
      match_export_names ctx data pairs exports = .ok (true, l) →
      l.length = exports.length ∧
      (∀ j, (l.getD j defaultExport).ordinal = (exports.getD j defaultExport).ordinal) ∧
      ((pairs.map Prod.snd).Nodup →
       (∀ pr ∈ pairs, (readStringAt data (rva_to_offset ctx.sections pr.1)).getD [] ≠ []) →
       (∀ pr ∈ pairs, (exports.getD pr.2 defaultExport).name = []) →
       countNamed l = countNamed exports + pairs.length) := by
  intro pairs
  induction pairs with
  | nil =>
    intro exports l h
    simp only [match_export_names, Except.ok.injEq, Prod.mk.injEq] at h
    obtain ⟨-, h2⟩ := h
    subst h2
    exact ⟨rfl, fun j => rfl, fun _ _ _ => by simp⟩
  | cons pr rest ih =>
    rcases pr with ⟨nrva, o⟩
    intro exports l h
    simp only [match_export_names] at h
    by_cases h0 : rva_to_offset ctx.sections nrva = 0
    · rw [if_pos h0] at h
      simp at h
    · rw [if_neg h0] at h
      by_cases h1 : o > exports.length
      · rw [if_pos h1] at h
        simp at h
      · rw [if_neg h1] at h
        by_cases h2 : o = exports.length
        · rw [if_pos h2] at h
          simp at h
        · rw [if_neg h2] at h
          have ho : o < exports.length := by omega
          rcases hs : readStringAt data (rva_to_offset ctx.sections nrva) with _ | s
          · rw [hs] at h
            simp at h
          · rw [hs] at h
            obtain ⟨ihl, iho, ihc⟩ := ih (setExportName exports o s) l h
            refine ⟨?_, ?_, ?_⟩
            · rw [ihl, setExportName_length]
            · intro j
              rw [iho j, setExportName_getD_ordinal]
            · intro hnd hstr hemp
              rw [List.map_cons] at hnd
              obtain ⟨hno, hnd2⟩ := List.nodup_cons.mp hnd
              have hsne : s ≠ [] := by
                have hx := hstr (nrva, o) (List.mem_cons_self _ _)
                rw [hs] at hx
                simpa using hx
              have hcnt := countNamed_setExportName exports o s ho
                (hemp (nrva, o) (List.mem_cons_self _ _)) hsne
              have hstr2 : ∀ pr2 ∈ rest,
                  (readStringAt data (rva_to_offset ctx.sections pr2.1)).getD [] ≠ [] :=
                fun pr2 hm => hstr pr2 (List.mem_cons_of_mem _ hm)
              have hemp2 : ∀ pr2 ∈ rest,
                  ((setExportName exports o s).getD pr2.2 defaultExport).name = [] := by
                intro pr2 hm
                rw [setExportName_getD_name_ne exports o s pr2.2 ?hne]
                case hne =>
                  intro hc
                  have hmem : pr2.2 ∈ List.map Prod.snd rest :=
                    List.mem_map_of_mem Prod.snd hm
                  rw [hc] at hmem
                  exact hno hmem
                exact hemp pr2 (List.mem_cons_of_mem _ hm)
              have hfin := ihc hnd2 hstr2 hemp2
              rw [hfin, hcnt]
              simp only [List.length_cons]
              omega

theorem countNamed_all_empty : ∀ (l : List ExportedFunction),
    (∀ j, (l.getD j defaultExport).name = []) → countNamed l = 0 := by
  intro l
  induction l with
  | nil => intro _; rfl
  | cons e t ih =>
    intro h
    have h0 : e.name = [] := h 0
    rw [countNamed_cons, ih (fun j => h (j + 1)), h0]
    rfl

/-- Concrete input for the amended C6 theorem: as `exportDataC6` but with the
name-ordinal table `[1, 0]` — two distinct in-range ordinals. -/
def exportDataC6W : List Nat :=
  List.replicate 10 0 ++ [65, 0] ++ List.replicate 88 0 ++
    iedBytes 5 2 2 140 148 156 ++ [50, 0, 0, 0, 60, 0, 0, 0] ++
    [10, 0, 0, 0, 10, 0, 0, 0] ++ [1, 0, 0, 0]

/-- C6 (amended): when `_parse_exports` runs to completion with all table
translations and reads succeeding, the export list has exactly
`NumberOfFunctions` entries whose ordinals are `Base + i` in table order; and
provided the `NumberOfNames` name ordinals are *pairwise distinct* (which the
claim omits) and every name string resolves to a non-empty string, exactly
`NumberOfNames` entries carry a name. -/
theorem c6_amended_export_tables
    (ctx : PECtx) (data : List Nat) (pos q : Nat) (ied : ImageExportDirectory)
    (exports : List ExportedFunction) (p2 : Nat) (nb ob : List Nat × Nat)
    (l : List ExportedFunction)
    (hreach : reach_directory ctx pos IMAGE_DIRECTORY_ENTRY_EXPORT = .ok (true, q))
    (h40 : (freadBytes data q 40).1.length = 40)
    (hied : ied = decodeIED (freadBytes data q 40).1)
    (hname : ¬ (rva_to_offset ctx.sections ied.name = 0 ∨
        readStringAt data (rva_to_offset ctx.sections ied.name) = none))
    (hfoff : ¬ rva_to_offset ctx.sections ied.addressOfFunctions = 0)
    (hfr : read_export_functions ctx data ied.base
        (ctx.directories.getD IMAGE_DIRECTORY_ENTRY_EXPORT ⟨0, 0⟩) ied.numberOfFunctions
        (rva_to_offset ctx.sections ied.addressOfFunctions) 0 = (true, exports, p2))
    (hnoff : ¬ rva_to_offset ctx.sections ied.addressOfNames = 0)
    (hnb : nb = freadBytes data (rva_to_offset ctx.sections ied.addressOfNames)
        (4 * ied.numberOfNames))
    (hnlen : nb.1.length = 4 * ied.numberOfNames)
    (hooff : ¬ rva_to_offset ctx.sections ied.addressOfNameOrdinals = 0)
    (hob : ob = freadBytes data (rva_to_offset ctx.sections ied.addressOfNameOrdinals)
        (2 * ied.numberOfNames))
    (holen : ob.1.length = 2 * ied.numberOfNames)
    (hmn : match_export_names ctx data ((decodeU32s nb.1).zip (decodeU16s ob.1)) exports
        = Except.ok (true, l))
    (hdistinct : (decodeU16s ob.1).Nodup)
    (hstrings : ∀ nrva ∈ decodeU32s nb.1,
        (readStringAt data (rva_to_offset ctx.sections nrva)).getD [] ≠ []) :
    parse_exports ctx data pos = .ok (true, ob.2, l) ∧
    l.length = ied.numberOfFunctions ∧
    (∀ j, j < ied.numberOfFunctions →
      (l.getD j defaultExport).ordinal = ied.base + j) ∧
    countNamed l = ied.numberOfNames := by
  have hspec := read_export_functions_spec ctx data ied.base
    (ctx.directories.getD IMAGE_DIRECTORY_ENTRY_EXPORT ⟨0, 0⟩) ied.numberOfFunctions
    (rva_to_offset ctx.sections ied.addressOfFunctions) 0
  rw [hfr] at hspec
  dsimp only at hspec
  obtain ⟨hel, heo, hen⟩ := hspec rfl
  obtain ⟨hll, hlo, hlc⟩ := match_export_names_spec ctx data
    ((decodeU32s nb.1).zip (decodeU16s ob.1)) exports l hmn
  have hnmlen : (decodeU32s nb.1).length = ied.numberOfNames :=
    decodeU32s_length ied.numberOfNames nb.1 hnlen
  have holen2 : (decodeU16s ob.1).length = ied.numberOfNames :=
    decodeU16s_length ied.numberOfNames ob.1 holen
  have hzlen : ((decodeU32s nb.1).zip (decodeU16s ob.1)).length = ied.numberOfNames := by
    rw [List.length_zip, hnmlen, holen2, Nat.min_self]
  have hnodup : (((decodeU32s nb.1).zip (decodeU16s ob.1)).map Prod.snd).Nodup := by
    rw [List.map_snd_zip]
    · exact hdistinct
    · rw [hnmlen, holen2]
  have hstr : ∀ pr ∈ (decodeU32s nb.1).zip (decodeU16s ob.1),
      (readStringAt data (rva_to_offset ctx.sections pr.1)).getD [] ≠ [] := by
    intro pr hm
    rcases pr with ⟨a, b⟩
    exact hstrings a (List.of_mem_zip hm).1
  have hemp : ∀ pr ∈ (decodeU32s nb.1).zip (decodeU16s ob.1),
      (exports.getD pr.2 defaultExport).name = [] := fun pr _ => hen pr.2
  have hcount0 : countNamed exports = 0 := countNamed_all_empty exports hen
  have hcnt := hlc hnodup hstr hemp
  rw [hcount0, hzlen, Nat.zero_add] at hcnt
  refine ⟨?_, ?_, ?_, ?_⟩
  · simp only [parse_exports]
    rw [hreach]
    dsimp only
    rcases hrd : freadBytes data q 40 with ⟨hb, p1⟩
    rw [hrd] at h40 hied
    dsimp only at h40 hied
    simp only [parse_exports_hdr]
    rw [if_neg (fun hc => hc h40)]
    rw [← hied]
    rw [if_neg hname]
    simp only [parse_exports_funcs]
    rw [if_neg hfoff]
    rw [hfr]
    dsimp only
    rw [if_neg (fun hc => Bool.noConfusion hc)]
    simp only [parse_exports_names]
    rw [if_neg hnoff]
    rw [← hnb]
    rw [if_neg (fun hc => hc hnlen)]
    simp only [parse_exports_ords]
    rw [if_neg hooff]
    rw [← hob]
    rw [if_neg (fun hc => hc holen)]
    simp only [parse_exports_match]
    rw [hmn]
  · rw [hll, hel]
  · intro j hj
    rw [hlo j, heo j hj]
    omega
  · exact hcnt

/-- C6, witness for the amended theorem: on `exportDataC6W` (two exported
functions, two distinct name ordinals, both name strings resolving to `"A"`)
the parse succeeds with 2 entries, ordinals `Base + i = 5, 6`, and both
entries named. -/
theorem c6_amended_witness :
    parse_exports exportCtx exportDataC6W 0
      = .ok (true, 160, [⟨50, 5, [65], []⟩, ⟨60, 6, [65], []⟩]) ∧
    ([⟨50, 5, [65], []⟩, ⟨60, 6, [65], []⟩] : List ExportedFunction).length
      = (decodeIED (freadBytes exportDataC6W 100 40).1).numberOfFunctions ∧
    (([⟨50, 5, [65], []⟩, ⟨60, 6, [65], []⟩] : List ExportedFunction).getD 1
        defaultExport).ordinal
      = (decodeIED (freadBytes exportDataC6W 100 40).1).base + 1 ∧
    countNamed [⟨50, 5, [65], []⟩, ⟨60, 6, [65], []⟩]
      = (decodeIED (freadBytes exportDataC6W 100 40).1).numberOfNames := by
  have h := c6_amended_export_tables exportCtx exportDataC6W 0 100
    (decodeIED (freadBytes exportDataC6W 100 40).1)
    [⟨50, 5, [], []⟩, ⟨60, 6, [], []⟩] 148
    ([10, 0, 0, 0, 10, 0, 0, 0], 156) ([1, 0, 0, 0], 160)
    [⟨50, 5, [65], []⟩, ⟨60, 6, [65], []⟩]
    (by rfl) (by rfl) rfl (by decide) (by decide) (by rfl) (by decide) (by rfl)
    (by rfl) (by decide) (by rfl) (by rfl) (by rfl) (by decide) (by decide)
  exact ⟨h.1, h.2.1, h.2.2.1 1 (by decide), h.2.2.2⟩

theorem tls_loopF_no_zero (data : List Nat) (size : Nat) :
    ∀ fuel pos, ∀ x ∈ ((tls_callback_loopF data size fuel pos).getD (pos, [])).2, x ≠ 0 := by
  intro fuel
  induction fuel with
  | zero =>
    intro pos x hx
    simp [tls_callback_loopF] at hx
  | succ f ih =>
    intro pos x hx
    rw [tls_callback_loopF] at hx
    rw [tls_callback_step] at hx
    by_cases h1 : (freadBytes data pos size).1.length ≠ size
    · rw [if_pos h1] at hx
      simp at hx
    · rw [if_neg h1] at hx
      by_cases h2 : leBytes (freadBytes data pos size).1 = 0
      · rw [if_pos h2] at hx
        simp at hx
      · rw [if_neg h2] at hx
        rcases hr : tls_callback_loopF data size f (freadBytes data pos size).2 with _ | t
        · rw [hr] at hx
          simp at hx
        · rw [hr] at hx
          simp at hx
          rcases hx with h | h
          · subst h
            exact h2
          · exact ih (freadBytes data pos size).2 x (by rw [hr]; exact h)

/-- The context of the concrete TLS example: no sections, image base 0, PE32,
TLS directory (slot 9) at RVA 20, size 24. -/
def ctxC8 : PECtx := ⟨[], List.replicate 9 ⟨0, 0⟩ ++ [⟨20, 24⟩], 0, false⟩

/-- Concrete TLS input: a PE32 `IMAGE_TLS_DIRECTORY` at offset 20 with
`AddressOfCallbacks = 50`, one non-zero callback (7) at offset 50 and the
zero terminator at offset 54. -/
def dataC8 : List Nat :=
  List.replicate 32 0 ++ [50, 0, 0, 0] ++ List.replicate 14 0 ++ [7, 0, 0, 0] ++ [0, 0, 0, 0]

/-- C8: the TLS callback loop reads pointer-width values and (i) a full read
of a zero value stops without appending, so a table whose first value is zero
yields an empty list; (ii) no zero value is ever appended; (iii) a short read
ends the loop with the entries so far (here: leaving an empty list); (iv) when
the directory is reached, the record read is complete and the callback-table
address translates, `_parse_tls` returns `true` with the callbacks produced by
the loop at width 8 (PE32+) or 4 (PE32). -/
theorem c8_tls_callback_loop (ctx : PECtx) (data : List Nat) (size pos p : Nat) :
    ((freadBytes data pos size).1.length = size → leBytes (freadBytes data pos size).1 = 0 →
      tls_callback_loop data size pos = ((freadBytes data pos size).2, [])) ∧
    (∀ x ∈ (tls_callback_loop data size pos).2, x ≠ 0) ∧
    ((freadBytes data pos size).1.length ≠ size →
      tls_callback_loop data size pos = ((freadBytes data pos size).2, [])) ∧
    (reach_directory ctx pos IMAGE_DIRECTORY_ENTRY_TLS = .ok (true, p) →
      (read_tls_record ctx.isPE32plus data p).2.2 = true →
      va_to_offset ctx.sections ctx.imageBase
        (read_tls_record ctx.isPE32plus data p).1.addressOfCallbacks ≠ 0 →
      parse_tls ctx data pos = .ok (true,
        (tls_callback_loop data (if ctx.isPE32plus then 8 else 4)
          (va_to_offset ctx.sections ctx.imageBase
            (read_tls_record ctx.isPE32plus data p).1.addressOfCallbacks)).1,
        {(read_tls_record ctx.isPE32plus data p).1 with callbacks :=
          (tls_callback_loop data (if ctx.isPE32plus then 8 else 4)
            (va_to_offset ctx.sections ctx.imageBase
              (read_tls_record ctx.isPE32plus data p).1.addressOfCallbacks)).2})) := by
  refine ⟨?_, ?_, ?_, ?_⟩
  · intro h1 h2
    rw [tls_callback_loop, tls_callback_loopF, tls_callback_step]
    rw [if_neg (fun hc => hc h1), if_pos h2]
    rfl
  · intro x hx
    exact tls_loopF_no_zero data size (data.length + 1) pos x hx
  · intro h1
    rw [tls_callback_loop, tls_callback_loopF, tls_callback_step]
    rw [if_pos h1]
    rfl
  · intro hreach hcomp hoff
    simp only [parse_tls]
    rw [hreach]
    dsimp only
    rw [hcomp]
    rw [if_neg (fun hc => Bool.noConfusion hc)]
    rw [if_neg hoff]

/-- C8, witness: on `dataC8` the loop at the zero terminator (offset 54)
returns an empty list; the loop at the callback table (offset 50) contains no
zero; the loop at end-of-stream (offset 58, short read) returns an empty list;
and the whole `_parse_tls` returns `true` with the single callback 7. -/
theorem c8_witness :
    tls_callback_loop dataC8 4 54 = ((freadBytes dataC8 54 4).2, []) ∧
    (∀ x ∈ (tls_callback_loop dataC8 4 50).2, x ≠ 0) ∧
    tls_callback_loop dataC8 4 58 = ((freadBytes dataC8 58 4).2, []) ∧
    parse_tls ctxC8 dataC8 0 = .ok (true, 58, ⟨0, 0, 0, 50, 0, 0, [7]⟩) := by
  have h1 := c8_tls_callback_loop ctxC8 dataC8 4 54 20
  have h2 := c8_tls_callback_loop ctxC8 dataC8 4 50 20
  have h3 := c8_tls_callback_loop ctxC8 dataC8 4 58 20
  have h4 := c8_tls_callback_loop ctxC8 dataC8 4 0 20
  refine ⟨h1.1 (by rfl) (by rfl), h2.2.1, h3.2.2.1 (by decide), ?_⟩
  have h5 := h4.2.2.2 (by rfl) (by rfl) (by decide)
  rw [h5]
  rfl

/-- The context of the concrete certificate example: the security directory
(slot 4) declares file offset 8 and size 44. -/
def certCtxC2 : PECtx := ⟨[], List.replicate 4 ⟨0, 0⟩ ++ [⟨8, 44⟩], 0, false⟩

/-- Concrete certificate input: at offset 8, two back-to-back
`WIN_CERTIFICATE`s, each `{Length 20, Revision 0x0200, CertificateType 2}`
with a 12-byte payload; 4 alignment bytes between them (20 + 4 + 20 = 44, the
declared directory size; 20 is not a multiple of 8). -/
def certDataC2 : List Nat :=
  List.replicate 8 0 ++ [20, 0, 0, 0, 0, 2, 2, 0] ++ List.replicate 12 1 ++
    [0, 0, 0, 0] ++ [20, 0, 0, 0, 0, 2, 2, 0] ++ List.replicate 12 1

/-- C2: the claim says this two-certificate chain yields exactly two parsed
certificates with an aligned skip between them.  The source instead tests
`cert->Length < remaining_bytes` — the comparison is inverted — which is true
for the very first certificate of any multi-certificate region (20 < 44), so
`_parse_certificates` returns `false` having parsed no certificate at all.
The conjuncts pin the scenario: both headers decode to
`{Length 20, Revision 0x0200 (recognized), Type 2 (recognized)}`, the lengths
are not multiples of 8, the total including padding equals the declared size —
and the parse result is `(false, 16, [])`, not two certificates. -/
theorem c2_valid_chain_rejected :
    parse_certificates (fun r => decide (r = 512)) (fun t => decide (t = 2))
      certCtxC2 certDataC2 0 = (false, 16, []) ∧
    (certCtxC2.directories.getD IMAGE_DIRECTORY_ENTRY_SECURITY ⟨0, 0⟩).size = 44 ∧
    leBytes ((certDataC2.drop 8).take 4) = 20 ∧
    leBytes ((certDataC2.drop 12).take 2) = 512 ∧
    leBytes ((certDataC2.drop 14).take 2) = 2 ∧
    leBytes ((certDataC2.drop 32).take 4) = 20 ∧
    leBytes ((certDataC2.drop 36).take 2) = 512 ∧
    leBytes ((certDataC2.drop 38).take 2) = 2 ∧
    20 % 8 ≠ 0 ∧
    20 + 20 % 8 + 20 = 44 :=
  ⟨rfl, rfl, rfl, rfl, rfl, rfl, rfl, rfl, by decide, rfl⟩
